import Mathlib

/-!
# A verification model of the meshmode mesh-topology and connection engine

The repository under verification is a mesh-topology and inter-discretization
connection engine for unstructured high-order finite-element meshes.  The
source tree contains the test drivers (`test/test_meshmode.py`, `testmpi.py`);
the engine itself (the `meshmode` package) is exercised through them.  The
definitions below embed, over exact rational arithmetic, the data model and
the operations those tests exercise: connections made of per-batch
interpolation matrices and their assembled dense resampling matrix, signed
element measures and orientation flips, the mesh serialization round-trip,
the facial-adjacency builder, mesh partitioning, and the cross-partition
connection protocol.  Definitions whose doc comment starts with
`Modelled from the spec:` embed engine operations that are not part of the
given source files and are reconstructed from the specification's wording.
-/

namespace Meshmode

/- ## Connection model: batches and the dense resampling matrix -/

/-- Dot product of two rational vectors, truncating at the shorter one. -/
def dotQ : List ℚ → List ℚ → ℚ
  | a :: as, b :: bs => a * b + dotQ as bs
  | _, _ => 0

/-- `colSum row fi s` sums the entries of `row` at the column positions whose
source-node index (in `fi`) equals `s`: the contribution of one batch row to
the dense-matrix entry in column `s`. -/
def colSum : List ℚ → List ℕ → ℕ → ℚ
  | r :: rs, x :: xs, s => (if x = s then r else 0) + colSum rs xs s
  | _, _, _ => 0

/-- Modelled from the spec: one batch of a connection (§3 "Connection", the
engine's `InterpolationBatch`, absent from the given sources): a subset of
target-discretization node indices, the source node indices it reads, and an
interpolation matrix (one row per target node, one column per source node). -/
structure Batch where
  to_indices : List ℕ
  from_indices : List ℕ
  mat : List (List ℚ)
  deriving DecidableEq

/-- Modelled from the spec: a connection (§3) with `nto` target nodes and
`nfrom` source nodes, given as an ordered sequence of batches. -/
structure Connection where
  nto : ℕ
  nfrom : ℕ
  batches : List Batch
  deriving DecidableEq

/-- All batch rows of a connection, flattened: each element is
(target node index, matrix row, source node indices of its batch). -/
def Connection.rows (c : Connection) : List (ℕ × List ℚ × List ℕ) :=
  c.batches.flatMap fun b => (b.to_indices.zip b.mat).map fun p => (p.1, p.2, b.from_indices)

/-- The value the first write targeting node `t` assigns (0 when no batch row
writes `t`). -/
def findVal (t : ℕ) : List (ℕ × ℚ) → ℚ
  | [] => 0
  | p :: ps => if p.1 = t then p.2 else findVal t ps

/-- Batch-by-batch application of a connection to a source nodal field `f`:
each batch row writes the dot product of its matrix row with the source
values it reads into its target node. -/
def applyConnection (c : Connection) (f : ℕ → ℚ) (t : ℕ) : ℚ :=
  findVal t (c.rows.map fun r => (r.1, dotQ r.2.1 (r.2.2.map f)))

/-- Modelled from the spec: entry `(t, s)` of the dense resampling matrix that
stacks all batch matrices according to the target node ordering (the engine's
`full_resample_matrix`, absent from the given sources; §4.4). -/
def full_resample_matrix (c : Connection) (t s : ℕ) : ℚ :=
  (c.rows.map fun r => if r.1 = t then colSum r.2.1 r.2.2 s else 0).sum

/-- Applying the assembled dense resampling matrix to a source nodal field. -/
def denseApply (c : Connection) (f : ℕ → ℚ) (t : ℕ) : ℚ :=
  ∑ s ∈ Finset.range c.nfrom, full_resample_matrix c t s * f s

/-- Source-node indices referenced by the connection stay below `nfrom`. -/
abbrev Connection.srcValid (c : Connection) : Prop :=
  ∀ r ∈ c.rows, ∀ s ∈ r.2.2, s < c.nfrom

/-- Every target node below `nto` is written by exactly one batch row
(coverage and disjointness, §3 "Connection" invariant). -/
abbrev Connection.coversOnce (c : Connection) : Prop :=
  ∀ t, t < c.nto → (c.rows.map fun r => r.1).count t = 1

/-- Witness fixture: a two-batch connection with 2 target and 3 source nodes. -/
def cW : Connection :=
  { nto := 2, nfrom := 3,
    batches := [ { to_indices := [0], from_indices := [0, 1], mat := [[1, 2]] },
                 { to_indices := [1], from_indices := [1, 2], mat := [[3, 4]] } ] }

/-- Witness fixture: a source nodal field on the nodes of `cW`. -/
def fW : ℕ → ℚ := fun s => (s : ℚ) + 1

/-- The constant-one nodal field. -/
def oneF : ℕ → ℚ := fun _ => 1

/-- The target polynomial space reproduces constants: every batch row applied
to the constant-one source field yields 1 (exact interpolation of a field
representable in the target space, §4.4). -/
abbrev Connection.constExact (c : Connection) : Prop :=
  ∀ r ∈ c.rows, dotQ r.2.1 (r.2.2.map oneF) = 1

/-- Witness fixture: a connection whose batch matrices reproduce constants. -/
def cW2 : Connection :=
  { nto := 2, nfrom := 3,
    batches := [ { to_indices := [0], from_indices := [0, 1], mat := [[1/2, 1/2]] },
                 { to_indices := [1], from_indices := [1, 2], mat := [[1, 0]] } ] }

/- ## Geometry kernel: signed measure and orientation flips -/

/-- Coordinates of vertex `v` of a vertex list, as a function on `Fin d`
(missing entries read as 0). -/
def coordsAt (d : ℕ) (vertices : List (List ℚ)) (v : ℕ) : Fin d → ℚ :=
  fun i => (vertices.getD v []).getD i.1 0

/-- Modelled from the spec: a volume mesh of `d`-simplices (§3 "Mesh"), the
part the Topology Editor acts on: ambient vertex coordinates and per-element
vertex-index tuples (length `d + 1` for a well-formed mesh). -/
structure VolMesh (d : ℕ) where
  vertices : List (List ℚ)
  elements : List (List ℕ)
  deriving DecidableEq

/-- Matrix of edge vectors of an element, taken from its reference (first)
vertex (§4.1 Geometry Kernel). -/
def edgeMatrix (d : ℕ) (vertices : List (List ℚ)) (el : List ℕ) :
    Matrix (Fin d) (Fin d) ℚ :=
  fun i j => coordsAt d vertices (el.getD (j.1 + 1) 0) i - coordsAt d vertices (el.getD 0 0) i

/-- Modelled from the spec: the signed measure of an element is the
determinant of its edge-vector matrix; its sign is the element's
orientation (§4.1, §4.3). -/
def signedMeasure (d : ℕ) (vertices : List (List ℚ)) (el : List ℕ) : ℚ :=
  (edgeMatrix d vertices el).det

/-- Modelled from the spec: the engine's
`find_volume_mesh_element_orientations`: the per-element orientation report
(§4.3 "Orientation check"). -/
def find_volume_mesh_element_orientations (d : ℕ) (m : VolMesh d) : List ℚ :=
  m.elements.map (signedMeasure d m.vertices)

/-- Modelled from the spec: the fixed per-reference-cell relabeling
permutation used by the flip operation (§4.3 "Flip"): a 1-simplex swaps its
two vertices; a higher simplex swaps its second and third vertices.  Physical
points are preserved: only the labels are permuted. -/
def flipElement : List ℕ → List ℕ
  | [a, b] => [b, a]
  | a :: b :: c :: rest => a :: c :: b :: rest
  | el => el

/-- Apply `f i el` to the element at position `i`, starting from index `i0`. -/
def mapIdxFrom (f : ℕ → List ℕ → List ℕ) : ℕ → List (List ℕ) → List (List ℕ)
  | _, [] => []
  | i, el :: els => f i el :: mapIdxFrom f (i + 1) els

/-- Modelled from the spec: `perform_flips` (§4.3): given a boolean mask over
the elements, flip exactly the masked elements by the fixed relabeling
permutation; vertices are untouched. -/
def perform_flips (d : ℕ) (m : VolMesh d) (mask : ℕ → Bool) : VolMesh d :=
  { vertices := m.vertices,
    elements := mapIdxFrom (fun i el => if mask i then flipElement el else el) 0 m.elements }

/-- Witness fixture: a 2-D mesh of two positively oriented triangles. -/
def mW : VolMesh 2 :=
  { vertices := [[0, 0], [1, 0], [0, 1], [1, 1]],
    elements := [[0, 1, 2], [1, 3, 2]] }

/-- Witness fixture: the element mask selecting only element 0 of `mW`. -/
def maskW : ℕ → Bool := fun i => i == 0

/- ## Adjacency builder: facial adjacency from raw connectivity -/

/-- Boundary tags (§3): the exterior tag, a partition id, or a user tag. -/
inductive BTag
  | exterior
  | partition (i : ℕ)
  | user (n : ℕ)
  deriving DecidableEq

/-- A facial adjacency record (§3 "Facial Adjacency Group"): an interior match
(neighbor element and neighbor local face, over the global element numbering
concatenating all groups) or a boundary tag. -/
inductive FaceRec
  | interior (nel nface : ℕ)
  | boundary (tag : BTag)
  deriving DecidableEq

/-- The vertex-index set of local face `f` of simplex element `el`: all its
vertices except the `f`-th, compared as an unordered set (§4.2). -/
def faceSet (el : List ℕ) (f : ℕ) : Finset ℕ :=
  (el.eraseIdx f).toFinset

/-- All occurrences `(element, local face)` of the vertex-index set `s` among
the faces of an element list carrying explicit element indices (§4.2's map
from vertex-index set to its face occurrences). -/
def occurrencesIdx (ies : List (ℕ × List ℕ)) (s : Finset ℕ) : List (ℕ × ℕ) :=
  ies.flatMap fun p =>
    (List.range p.2.length).filterMap fun f =>
      if faceSet p.2 f = s then some (p.1, f) else none

/-- Occurrences of the vertex-index set `s` among all faces of `els`. -/
def occurrences (els : List (List ℕ)) (s : Finset ℕ) : List (ℕ × ℕ) :=
  occurrencesIdx els.enum s

/-- Modelled from the spec (§4.2 "Facial adjacency"): the record of face `f`
of element `e`: a vertex-index set occurring exactly twice is an interior
match (the matching occurrence is the neighbor), occurring once a boundary
face tagged exterior; any other multiplicity is a fatal topology error. -/
def faceRecord (els : List (List ℕ)) (e f : ℕ) : Option FaceRec :=
  match occurrences els (faceSet (els.getD e []) f) with
  | [_] => some (.boundary .exterior)
  | [p, q] => some (if p = (e, f) then .interior q.1 q.2 else .interior p.1 p.2)
  | _ => none

/-- Witness fixture: global element list of two triangles sharing edge
`{1, 2}`. -/
def elsW : List (List ℕ) := [[0, 1, 2], [1, 3, 2]]

/-- Witness fixture: the expected facial adjacency of `elsW`. -/
def adjW : List (List FaceRec) :=
  [[.interior 1 1, .boundary .exterior, .boundary .exterior],
   [.boundary .exterior, .interior 0 0, .boundary .exterior]]

/-- One optional record per (element, local face) of `els`. -/
def facialAdjacencyRecs (els : List (List ℕ)) : List (List (Option FaceRec)) :=
  els.enum.map fun p => (List.range p.2.length).map fun f => faceRecord els p.1 f

/-- Modelled from the spec: the computed Facial Adjacency Groups over the
global element numbering: one record per (element, local face), `none` on a
degenerate topology (§4.2, §7a). -/
def facialAdjacency (els : List (List ℕ)) : Option (List (List FaceRec)) :=
  if (facialAdjacencyRecs els).all fun l => l.all fun o => o.isSome
  then some ((facialAdjacencyRecs els).map fun l => l.map fun o => o.getD (.boundary .exterior))
  else none

/- ## Topology editor: mesh partitioning -/

/-- Modelled from the spec: `partition_mesh` (§4.3 "Partition"): the induced
submesh of partition `i`: the elements whose assigned partition id is `i`,
kept with their original global indices (the local dense renumbering is an
injective relabeling and does not affect face identity). -/
def partition_mesh (els : List (List ℕ)) (part : List ℕ) (i : ℕ) : List (ℕ × List ℕ) :=
  els.enum.filter fun p => part.getD p.1 0 == i

/-- Modelled from the spec (§4.3 "Partition"): the facial-adjacency record of
face `f` of element `e` inside partition `i`'s submesh: faces are matched
among the partition's own elements; an unmatched face that was an interior
face of the full mesh becomes a boundary face tagged with the neighboring
partition's id, and other unmatched faces keep their exterior tag. -/
def partitionFaceRecord (els : List (List ℕ)) (part : List ℕ) (i : ℕ) (e f : ℕ) :
    Option FaceRec :=
  match occurrencesIdx (partition_mesh els part i) (faceSet (els.getD e []) f) with
  | [_] =>
      match faceRecord els e f with
      | some (.interior e2 _) => some (.boundary (.partition (part.getD e2 0)))
      | r => r
  | [p, q] => some (if p = (e, f) then .interior q.1 q.2 else .interior p.1 p.2)
  | _ => none

/-- Witness fixture: a partition assignment putting the two elements of
`elsW` in different partitions. -/
def partW : List ℕ := [0, 1]

/- ## Connection builder: face restriction and the partition protocol -/

/-- Modelled from the spec: the result of a face restriction (§4.4): the
(element, local face) pairs selected by the boundary tag and the node count
per boundary face of the target discretization. -/
structure FaceRestriction where
  selected : List (ℕ × ℕ)
  nNodes : ℕ
  deriving DecidableEq

/-- Total node count of the target boundary discretization. -/
def FaceRestriction.targetNodeCount (fr : FaceRestriction) : ℕ :=
  fr.selected.length * fr.nNodes

/-- The (element, local face) pairs of `adj` carrying the boundary tag. -/
def selectFaces (adj : List (List FaceRec)) (tag : BTag) : List (ℕ × ℕ) :=
  adj.enum.flatMap fun p =>
    p.2.enum.filterMap fun q =>
      if q.2 = FaceRec.boundary tag then some (p.1, q.1) else none

/-- Modelled from the spec: `make_face_restriction` (§4.4): select the faces
carrying the boundary tag from the mesh's facial adjacency and build the
boundary discretization over them with `nNodes` nodes per face.  It fails
only if the facial adjacency itself is degenerate; a tag matching no face
yields a zero-node boundary discretization, not an error. -/
def make_face_restriction (els : List (List ℕ)) (nNodes : ℕ) (tag : BTag) :
    Option FaceRestriction :=
  (facialAdjacency els).map fun adj => { selected := selectFaces adj tag, nNodes := nNodes }

/-- Modelled from the spec and testmpi.py: the exchanged boundary bundle
(§4.4 step 2, §6 "Distributed bundle format", testmpi.py's `local_data`):
the remote boundary element count, the per-face matching metadata resolved
from the exchanged to-element-face/to-element-index arrays — pairs of
(local boundary element, remote boundary element) — and the per-face
interpolation matrices. -/
structure Bundle where
  nRemoteElems : ℕ
  pairs : List (ℕ × ℕ)
  mats : List (List (List ℚ))
  deriving DecidableEq

/-- Modelled from the spec: `make_partition_connection` (§4.4 step 3): build
the connection mapping remote-boundary nodes to local-boundary nodes, one
batch per matched element pair of the exchanged metadata, with the same node
layout (`nNodes` nodes per face) on both sides. -/
def make_partition_connection (nNodes nLocalElems : ℕ) (b : Bundle) : Connection :=
  { nto := nLocalElems * nNodes,
    nfrom := b.nRemoteElems * nNodes,
    batches := (b.pairs.zip b.mats).map fun pm =>
      { to_indices := (List.range nNodes).map fun j => pm.1.1 * nNodes + j,
        from_indices := (List.range nNodes).map fun j => pm.1.2 * nNodes + j,
        mat := pm.2 } }

/-- Modelled from the spec: `check_connection` (§4.4 "Connection correctness
check"): full target-node coverage with disjointness, source-index validity,
and the exactness round trip on the constant-one test field. -/
def check_connection (c : Connection) : Bool :=
  (decide (∀ t, t < c.nto → (c.rows.map fun r => r.1).count t = 1)
    && decide c.srcValid)
    && decide (∀ t, t < c.nto → applyConnection c oneF t = 1)

/-- Translated from testmpi.py (lines 64-67): the sender transmits `none`
instead of a boundary bundle when the local boundary discretization for the
remote partition has zero nodes. -/
def sendBoundaryData (fr : FaceRestriction) (payload : Bundle) : Option Bundle :=
  if fr.targetNodeCount = 0 then none else some payload

/-- Translated from testmpi.py (lines 104-107): on a `none` bundle the
receiver skips connection construction for that partition pair (no error);
otherwise it builds the partition connection from the received data. -/
def receiveBoundaryData (data : Option Bundle)
    (build : Bundle → Except String Connection) : Except String (Option Connection) :=
  match data with
  | none => Except.ok none
  | some d => (build d).map some

/-- Witness fixture: a face restriction whose boundary has no faces. -/
def frW : FaceRestriction := { selected := [], nNodes := 4 }

/-- Witness fixture: an arbitrary bundle payload. -/
def bundleW0 : Bundle := { nRemoteElems := 0, pairs := [], mats := [] }

/-- Witness fixture: a builder that fails, to show the receiver never runs it
on an absent bundle. -/
def buildW : Bundle → Except String Connection := fun _ => Except.error "unreachable"

/-- Witness fixture: a two-face bundle matching local faces 0,1 to remote
faces 1,0 with one node per face. -/
def bundleW : Bundle := { nRemoteElems := 2, pairs := [(0, 1), (1, 0)], mats := [[[1]], [[1]]] }

/- ## Mesh model and the serialization round trip -/

/-- An element group (§3 "Element Group"): polynomial order, unit-cell
dimension, per-element vertex-index tuples, and per-element interpolation
node coordinates. -/
structure MMElementGroup where
  order : ℕ
  dim : ℕ
  vertex_indices : List (List ℕ)
  nodes : List (List (List ℚ))
  deriving DecidableEq

/-- Nodal adjacency stored as a CSR offset/index pair over the global element
numbering (§3 "Nodal Adjacency"). -/
structure NodalAdjacency where
  neighbors_starts : List ℕ
  neighbors : List ℕ
  deriving DecidableEq

/-- A mesh (§3 "Mesh"): vertices, element groups, and the two optional cached
adjacency structures; structural mesh equality is Lean equality of this
data. -/
structure MMMesh where
  vertices : List (List ℚ)
  groups : List MMElementGroup
  nodal_adjacency : Option NodalAdjacency
  facial_adjacency_groups : Option (List (List (List FaceRec)))
  deriving DecidableEq

/-- The deterministic code/data representation produced by serialization: a
tree of numbers, lists and an absent-value marker (§6 "Serialization
round-trip"; §9: a structured serialize/deserialize pair replacing the
generated-source `as_python`/exec pattern). -/
inductive PyData where
  | nat (n : ℕ)
  | rat (q : ℚ)
  | list (xs : List PyData)
  | noneV

/-- Encode a list elementwise. -/
def encList {α : Type} (enc : α → PyData) (l : List α) : PyData :=
  .list (l.map enc)

/-- Encode an optional value (`noneV` when absent, a singleton list when
present). -/
def encOpt {α : Type} (enc : α → PyData) : Option α → PyData
  | none => .noneV
  | some a => .list [enc a]

/-- Decode a list of encoded values; fails if any element fails. -/
def decListAux {α : Type} (dec : PyData → Option α) : List PyData → Option (List α)
  | [] => some []
  | x :: xs => do
      let a ← dec x
      let as ← decListAux dec xs
      pure (a :: as)

/-- Decode an encoded list. -/
def decList {α : Type} (dec : PyData → Option α) : PyData → Option (List α)
  | .list xs => decListAux dec xs
  | _ => none

/-- Decode an encoded optional value. -/
def decOpt {α : Type} (dec : PyData → Option α) : PyData → Option (Option α)
  | .noneV => some none
  | .list [x] => (dec x).map some
  | _ => none

/-- Decode a natural number. -/
def decNat : PyData → Option ℕ
  | .nat n => some n
  | _ => none

/-- Decode a rational number. -/
def decRat : PyData → Option ℚ
  | .rat q => some q
  | _ => none

/-- Encode a boundary tag. -/
def encBTag : BTag → PyData
  | .exterior => .list [.nat 0]
  | .partition i => .list [.nat 1, .nat i]
  | .user n => .list [.nat 2, .nat n]

/-- Decode a boundary tag. -/
def decBTag : PyData → Option BTag
  | .list [.nat 0] => some .exterior
  | .list [.nat 1, .nat i] => some (.partition i)
  | .list [.nat 2, .nat n] => some (.user n)
  | _ => none

/-- Encode a facial adjacency record. -/
def encFaceRec : FaceRec → PyData
  | .interior e f => .list [.nat 0, .nat e, .nat f]
  | .boundary t => .list [.nat 1, encBTag t]

/-- Decode a facial adjacency record. -/
def decFaceRec : PyData → Option FaceRec
  | .list [.nat 0, .nat e, .nat f] => some (.interior e f)
  | .list [.nat 1, t] => (decBTag t).map .boundary
  | _ => none

/-- Encode an element group. -/
def encGroup (g : MMElementGroup) : PyData :=
  .list [.nat g.order, .nat g.dim,
         encList (encList PyData.nat) g.vertex_indices,
         encList (encList (encList PyData.rat)) g.nodes]

/-- Decode an element group. -/
def decGroup : PyData → Option MMElementGroup
  | .list [.nat o, .nat d, vi, nd] => do
      let vis ← decList (decList decNat) vi
      let nds ← decList (decList (decList decRat)) nd
      pure ⟨o, d, vis, nds⟩
  | _ => none

/-- Encode the nodal adjacency. -/
def encNodalAdjacency (na : NodalAdjacency) : PyData :=
  .list [encList PyData.nat na.neighbors_starts, encList PyData.nat na.neighbors]

/-- Decode the nodal adjacency. -/
def decNodalAdjacency : PyData → Option NodalAdjacency
  | .list [a, b] => do
      let sa ← decList decNat a
      let sb ← decList decNat b
      pure ⟨sa, sb⟩
  | _ => none

/-- Modelled from the spec: `as_python` (§6, §9): the deterministic
mesh → code/data encoding covering vertices, groups, and both cached
adjacency structures. -/
def as_python (m : MMMesh) : PyData :=
  .list [encList (encList PyData.rat) m.vertices,
         encList encGroup m.groups,
         encOpt encNodalAdjacency m.nodal_adjacency,
         encOpt (encList (encList (encList encFaceRec))) m.facial_adjacency_groups]

/-- Modelled from the spec: the inverse of `as_python` (§6): rebuild the mesh
from its code/data representation. -/
def mesh_from_python : PyData → Option MMMesh
  | .list [v, g, na, fa] => do
      let vs ← decList (decList decRat) v
      let gs ← decList decGroup g
      let nas ← decOpt decNodalAdjacency na
      let fas ← decOpt (decList (decList (decList decFaceRec))) fa
      pure ⟨vs, gs, nas, fas⟩
  | _ => none

end Meshmode

namespace Meshmode

/- ## Theorems: batched application agrees with the dense matrix -/

lemma dotQ_map_eq_sum (f : ℕ → ℚ) (n : ℕ) :
    ∀ (row : List ℚ) (fi : List ℕ), (∀ s ∈ fi, s < n) →
      dotQ row (fi.map f) = ∑ s ∈ Finset.range n, colSum row fi s * f s := by
  intro row
  induction row with
  | nil =>
      intro fi _
      simp [dotQ, colSum]
  | cons r rs ih =>
      intro fi hfi
      cases fi with
      | nil => simp [dotQ, colSum]
      | cons x xs =>
          have hx : x < n := hfi x (by simp)
          have hxs : ∀ s ∈ xs, s < n := fun s hs => hfi s (by simp [hs])
          simp only [List.map_cons, dotQ, colSum, add_mul, Finset.sum_add_distrib,
            ih xs hxs]
          congr 1
          have : ∀ s ∈ Finset.range n, (if x = s then r else 0) * f s
              = if x = s then r * f s else 0 := by
            intro s _
            by_cases h : x = s <;> simp [h]
          rw [Finset.sum_congr rfl this, Finset.sum_ite_eq, if_pos (Finset.mem_range.2 hx)]

lemma lookup_rows_eq_dense (f : ℕ → ℚ) (n : ℕ) :
    ∀ (T : List (ℕ × List ℚ × List ℕ)) (t : ℕ),
      (∀ r ∈ T, ∀ s ∈ r.2.2, s < n) →
      (T.map fun r => r.1).count t = 1 →
      findVal t (T.map fun r => (r.1, dotQ r.2.1 (r.2.2.map f)))
        = ∑ s ∈ Finset.range n, (T.map fun r => if r.1 = t then colSum r.2.1 r.2.2 s else 0).sum * f s := by
  intro T
  induction T with
  | nil => intro t _ hcount; simp at hcount
  | cons r T ih =>
      intro t hval hcount
      by_cases h : r.1 = t
      · have hcount0 : (T.map fun r => r.1).count t = 0 := by
          simpa [List.count_cons, h] using hcount
        have hnot : ∀ r' ∈ T, r'.1 ≠ t := by
          intro r' hr'
          have := List.count_eq_zero.1 hcount0
          intro he
          exact this (List.mem_map.2 ⟨r', hr', he⟩)
        have hzero : ∀ s : ℕ,
            (T.map fun r => if r.1 = t then colSum r.2.1 r.2.2 s else 0).sum = 0 := by
          intro s
          apply List.sum_eq_zero
          intro x hx
          rcases List.mem_map.1 hx with ⟨r', hr', rfl⟩
          simp [hnot r' hr']
        have hval0 : ∀ s ∈ r.2.2, s < n := hval r (by simp)
        simp only [List.map_cons, findVal, h, if_true, eq_self_iff_true, List.sum_cons]
        have hsum : ∀ s ∈ Finset.range n,
            (colSum r.2.1 r.2.2 s
              + (T.map fun r => if r.1 = t then colSum r.2.1 r.2.2 s else 0).sum) * f s
            = colSum r.2.1 r.2.2 s * f s := by
          intro s _
          rw [hzero s, add_zero]
        rw [Finset.sum_congr rfl hsum]
        exact dotQ_map_eq_sum f n r.2.1 r.2.2 hval0
      · have hcount' : (T.map fun r => r.1).count t = 1 := by
          simpa [List.count_cons, h] using hcount
        have hval' : ∀ r' ∈ T, ∀ s ∈ r'.2.2, s < n := by
          intro r' hr'
          exact hval r' (by simp [hr'])
        simp only [List.map_cons, findVal, h, if_false]
        simpa [h] using ih t hval' hcount'

lemma applyConnection_eq_denseApply (c : Connection) (f : ℕ → ℚ)
    (hval : c.srcValid) (hcov : c.coversOnce) :
    ∀ t, t < c.nto → applyConnection c f t = denseApply c f t := by
  intro t ht
  exact lookup_rows_eq_dense f c.nfrom c.rows t hval (hcov t ht)

/-- C1: for a connection built by face restriction, applying the per-batch
interpolation matrices to any source nodal field agrees, at every target
node, with multiplying the field by the single dense matrix assembled by
`full_resample_matrix` from the batch matrices. -/
theorem batches_agree_with_full_resample_matrix (c : Connection) (f : ℕ → ℚ)
    (hval : c.srcValid) (hcov : c.coversOnce) :
    ∀ t, t < c.nto → applyConnection c f t = denseApply c f t :=
  applyConnection_eq_denseApply c f hval hcov

/-- Witness for C1 on the concrete two-batch connection `cW` at target
node 0. -/
theorem batches_agree_with_full_resample_matrix_witness :
    applyConnection cW fW 0 = denseApply cW fW 0 :=
  batches_agree_with_full_resample_matrix cW fW (by decide) (by decide) 0 (by decide)

lemma findVal_eq_of_forall (t : ℕ) (k : ℚ) :
    ∀ L : List (ℕ × ℚ), (∀ p ∈ L, p.2 = k) → t ∈ L.map Prod.fst → findVal t L = k := by
  intro L
  induction L with
  | nil => intro _ hmem; simp at hmem
  | cons p L ih =>
      intro hall hmem
      by_cases h : p.1 = t
      · simp [findVal, h, hall p (by simp)]
      · have hmem' : t ∈ L.map Prod.fst := by
          rcases List.mem_map.1 hmem with ⟨q, hq, rfl⟩
          rcases List.mem_cons.1 hq with rfl | hq'
          · exact absurd rfl h
          · exact List.mem_map.2 ⟨q, hq', rfl⟩
        have hall' : ∀ p ∈ L, p.2 = k := fun q hq => hall q (by simp [hq])
        simp [findVal, h, ih hall' hmem']

lemma applyConnection_oneF_eq_one (c : Connection)
    (hcov : c.coversOnce) (hexact : c.constExact) :
    ∀ t, t < c.nto → applyConnection c oneF t = 1 := by
  intro t ht
  apply findVal_eq_of_forall
  · intro p hp
    rcases List.mem_map.1 hp with ⟨r, hr, rfl⟩
    exact hexact r hr
  · have h1 : (c.rows.map fun r => r.1).count t = 1 := hcov t ht
    have hmem : t ∈ c.rows.map fun r => r.1 := by
      by_contra hmem
      rw [List.count_eq_zero.2 hmem] at h1
      exact absurd h1 (by simp)
    simpa [List.map_map, Function.comp] using hmem

/-- C2: for a connection whose target space reproduces constants, applying the
connection to the constant-one field gives back the constant-one field at
every target node, and the batched and dense-matrix application paths agree. -/
theorem connection_exact_on_constants (c : Connection)
    (hval : c.srcValid) (hcov : c.coversOnce) (hexact : c.constExact) :
    ∀ t, t < c.nto →
      applyConnection c oneF t = 1 ∧ denseApply c oneF t = applyConnection c oneF t := by
  intro t ht
  refine ⟨applyConnection_oneF_eq_one c hcov hexact t ht, ?_⟩
  exact (applyConnection_eq_denseApply c oneF hval hcov t ht).symm

/-- Witness for C2 on the concrete constant-preserving connection `cW2` at
target node 0. -/
theorem connection_exact_on_constants_witness :
    applyConnection cW2 oneF 0 = 1 ∧ denseApply cW2 oneF 0 = applyConnection cW2 oneF 0 :=
  connection_exact_on_constants cW2 (by decide) (by decide)
    (by
      simp [cW2, Connection.rows, dotQ, oneF]
      rintro a b c (⟨_, rfl, rfl⟩ | ⟨_, rfl, rfl⟩) <;> norm_num [dotQ, oneF])
    0 (by decide)

/- ## Orientation flips negate the signed measure -/

lemma signedMeasure_one (vertices : List (List ℚ)) (x y : ℕ) :
    signedMeasure 1 vertices [x, y]
      = (vertices.getD y []).getD 0 0 - (vertices.getD x []).getD 0 0 := by
  rw [signedMeasure, Matrix.det_fin_one]
  rfl

lemma signedMeasure_flip (d : ℕ) (vertices : List (List ℚ)) (el : List ℕ)
    (hd : 1 ≤ d) (hlen : el.length = d + 1) :
    signedMeasure d vertices (flipElement el) = - signedMeasure d vertices el := by
  rcases d with _ | _ | k
  · omega
  · -- 1-simplex: the two vertices are swapped
    rcases el with _ | ⟨a, _ | ⟨b, rest⟩⟩ <;> simp at hlen
    subst hlen
    show signedMeasure 1 vertices [b, a] = - signedMeasure 1 vertices [a, b]
    rw [signedMeasure_one, signedMeasure_one]
    ring
  · -- higher simplex: the second and third vertices are swapped
    rcases el with _ | ⟨a, _ | ⟨b, _ | ⟨c, rest⟩⟩⟩ <;> simp at hlen
    have hmat : edgeMatrix (k + 2) vertices (flipElement (a :: b :: c :: rest))
        = (edgeMatrix (k + 2) vertices (a :: b :: c :: rest)).submatrix id
            (Equiv.swap 0 1) := by
      show edgeMatrix (k + 2) vertices (a :: c :: b :: rest) = _
      ext i j
      simp only [edgeMatrix, Matrix.submatrix_apply, id]
      congr 2
      obtain ⟨jv, hj⟩ := j
      rcases jv with _ | jv
      · have h0 : (⟨0, hj⟩ : Fin (k + 2)) = 0 := rfl
        rw [h0, Equiv.swap_apply_left]
        rfl
      · rcases jv with _ | jv
        · have h1 : (⟨1, hj⟩ : Fin (k + 2)) = 1 := rfl
          rw [h1, Equiv.swap_apply_right]
          rfl
        · have hne0 : (⟨jv + 2, hj⟩ : Fin (k + 2)) ≠ 0 := by
            intro h
            exact absurd (congrArg Fin.val h) (by simp)
          have hne1 : (⟨jv + 2, hj⟩ : Fin (k + 2)) ≠ 1 := by
            intro h
            have := congrArg Fin.val h
            simp [Fin.val_one] at this
          rw [Equiv.swap_apply_of_ne_of_ne hne0 hne1]
          rfl
    rw [signedMeasure, hmat, Matrix.det_permute' (Equiv.swap 0 1)]
    simp [Equiv.Perm.sign_swap (Fin.zero_ne_one (n := k)), signedMeasure]

lemma flipElement_perm (el : List ℕ) : (flipElement el).Perm el := by
  rcases el with _ | ⟨a, _ | ⟨b, _ | ⟨c, rest⟩⟩⟩
  · exact List.Perm.refl _
  · exact List.Perm.refl _
  · exact List.Perm.swap a b []
  · exact List.Perm.cons a (List.Perm.swap b c rest)

lemma flipElement_involutive (el : List ℕ) : flipElement (flipElement el) = el := by
  rcases el with _ | ⟨a, _ | ⟨b, _ | ⟨c, rest⟩⟩⟩ <;> rfl

lemma mapIdxFrom_length (f : ℕ → List ℕ → List ℕ) :
    ∀ (i : ℕ) (els : List (List ℕ)), (mapIdxFrom f i els).length = els.length := by
  intro i els
  induction els generalizing i with
  | nil => rfl
  | cons el els ih => simp [mapIdxFrom, ih]

lemma mapIdxFrom_getD (f : ℕ → List ℕ → List ℕ) :
    ∀ (els : List (List ℕ)) (i0 e : ℕ), e < els.length →
      (mapIdxFrom f i0 els).getD e [] = f (i0 + e) (els.getD e []) := by
  intro els
  induction els with
  | nil => intro i0 e he; simp at he
  | cons el els ih =>
      intro i0 e he
      cases e with
      | zero => simp [mapIdxFrom]
      | succ e =>
          have he' : e < els.length := by simpa using he
          have := ih (i0 + 1) e he'
          simpa [mapIdxFrom, Nat.add_assoc, Nat.add_comm, Nat.add_left_comm] using this

lemma getD_map_sm (g : List ℕ → ℚ) :
    ∀ (l : List (List ℕ)) (e : ℕ), e < l.length → (l.map g).getD e 0 = g (l.getD e []) := by
  intro l
  induction l with
  | nil => intro e he; simp at he
  | cons x l ih =>
      intro e he
      cases e with
      | zero => simp
      | succ e => simpa using ih e (by simpa using he)

lemma getD_mem_of_lt {l : List (List ℕ)} {e : ℕ} (he : e < l.length) :
    l.getD e [] ∈ l := by
  induction l generalizing e with
  | nil => simp at he
  | cons x l ih =>
      cases e with
      | zero => simp
      | succ e => simpa using Or.inr (ih (by simpa using he))

/-- C3: flipping exactly the masked elements of an all-positively-oriented
mesh makes an element's signed measure negative iff the element was masked,
while the element keeps the same physical points (its vertex tuple is only
relabeled by a fixed permutation) and the vertex set is untouched. -/
theorem perform_flips_negates_masked (d : ℕ) (m : VolMesh d) (mask : ℕ → Bool)
    (hd : 1 ≤ d) (hlen : ∀ el ∈ m.elements, el.length = d + 1)
    (hpos : ∀ q ∈ find_volume_mesh_element_orientations d m, 0 < q) :
    ∀ e, e < m.elements.length →
      (((find_volume_mesh_element_orientations d (perform_flips d m mask)).getD e 0 < 0)
          ↔ mask e = true)
      ∧ ((perform_flips d m mask).elements.getD e []).Perm (m.elements.getD e [])
      ∧ (perform_flips d m mask).vertices = m.vertices := by
  intro e he
  have hlenf : (perform_flips d m mask).elements.length = m.elements.length :=
    mapIdxFrom_length _ 0 m.elements
  have hef : e < (perform_flips d m mask).elements.length := by rw [hlenf]; exact he
  have hgetD : (perform_flips d m mask).elements.getD e []
      = (if mask e then flipElement (m.elements.getD e []) else m.elements.getD e []) := by
    have := mapIdxFrom_getD (fun i el => if mask i then flipElement el else el) m.elements 0 e he
    simpa using this
  have hmem : m.elements.getD e [] ∈ m.elements := getD_mem_of_lt he
  have hsm : 0 < signedMeasure d m.vertices (m.elements.getD e []) := by
    apply hpos
    exact List.mem_map.2 ⟨m.elements.getD e [], hmem, rfl⟩
  have horient : (find_volume_mesh_element_orientations d (perform_flips d m mask)).getD e 0
      = signedMeasure d m.vertices ((perform_flips d m mask).elements.getD e []) :=
    getD_map_sm (signedMeasure d m.vertices) _ e hef
  refine ⟨?_, ?_, rfl⟩
  · rw [horient, hgetD]
    by_cases hm : mask e
    · rw [if_pos hm,
        signedMeasure_flip d m.vertices (m.elements.getD e []) hd (hlen _ hmem)]
      simp only [hm, iff_true]
      linarith
    · rw [if_neg hm]
      constructor
      · intro hneg
        exact absurd hneg (not_lt_of_gt hsm)
      · intro hmt
        exact absurd hmt hm
  · rw [hgetD]
    by_cases hm : mask e
    · rw [if_pos hm]; exact flipElement_perm _
    · rw [if_neg hm]

lemma signedMeasure_two (vertices : List (List ℚ)) (x y z : ℕ) :
    signedMeasure 2 vertices [x, y, z]
      = ((vertices.getD y []).getD 0 0 - (vertices.getD x []).getD 0 0)
        * ((vertices.getD z []).getD 1 0 - (vertices.getD x []).getD 1 0)
      - ((vertices.getD z []).getD 0 0 - (vertices.getD x []).getD 0 0)
        * ((vertices.getD y []).getD 1 0 - (vertices.getD x []).getD 1 0) := by
  rw [signedMeasure, Matrix.det_fin_two]
  rfl

/-- Witness for C3 on the two-triangle mesh `mW` with mask `maskW`, at
element 0 (the flipped one). -/
theorem perform_flips_negates_masked_witness :
    (((find_volume_mesh_element_orientations 2 (perform_flips 2 mW maskW)).getD 0 0 < 0)
        ↔ maskW 0 = true)
    ∧ ((perform_flips 2 mW maskW).elements.getD 0 []).Perm (mW.elements.getD 0 [])
    ∧ (perform_flips 2 mW maskW).vertices = mW.vertices :=
  perform_flips_negates_masked 2 mW maskW (by norm_num) (by decide)
    (by
      have h1 : signedMeasure 2 mW.vertices [0, 1, 2] = 1 := by
        rw [signedMeasure_two]
        show ((1 : ℚ) - 0) * (1 - 0) - (0 - 0) * (0 - 0) = 1
        norm_num
      have h2 : signedMeasure 2 mW.vertices [1, 3, 2] = 1 := by
        rw [signedMeasure_two]
        show ((1 : ℚ) - 1) * (1 - 0) - (0 - 1) * (1 - 0) = 1
        norm_num
      intro q hq
      have hor : find_volume_mesh_element_orientations 2 mW
          = [signedMeasure 2 mW.vertices [0, 1, 2], signedMeasure 2 mW.vertices [1, 3, 2]] :=
        rfl
      rw [hor, h1, h2] at hq
      simp at hq
      rw [hq]
      norm_num)
    0 (by decide)

lemma mapIdxFrom_flip_involutive (mask : ℕ → Bool) :
    ∀ (i : ℕ) (els : List (List ℕ)),
      mapIdxFrom (fun i el => if mask i then flipElement el else el) i
        (mapIdxFrom (fun i el => if mask i then flipElement el else el) i els) = els := by
  intro i els
  induction els generalizing i with
  | nil => rfl
  | cons el els ih =>
      simp only [mapIdxFrom, List.cons.injEq]
      refine ⟨?_, ih (i + 1)⟩
      by_cases hm : mask i <;> simp [hm, flipElement_involutive]

lemma perform_flips_involutive (d : ℕ) (m : VolMesh d) (mask : ℕ → Bool) :
    perform_flips d (perform_flips d m mask) mask = m := by
  cases m with
  | mk vertices elements =>
      simp [perform_flips, mapIdxFrom_flip_involutive mask 0 elements]

/-- C4: flipping the same element mask twice restores every element's signed
measure and yields facial adjacency structurally equal to the pre-flip
state. -/
theorem double_flip_restores (d : ℕ) (m : VolMesh d) (mask : ℕ → Bool) :
    find_volume_mesh_element_orientations d (perform_flips d (perform_flips d m mask) mask)
      = find_volume_mesh_element_orientations d m
    ∧ facialAdjacency (perform_flips d (perform_flips d m mask) mask).elements
      = facialAdjacency m.elements := by
  rw [perform_flips_involutive]
  exact ⟨rfl, rfl⟩

/- ## Facial adjacency: uniqueness and symmetry of interior matches -/

lemma getD_map_lt {α β : Type} (g : α → β) (da : α) (db : β) :
    ∀ (l : List α) (e : ℕ), e < l.length → (l.map g).getD e db = g (l.getD e da) := by
  intro l
  induction l with
  | nil => intro e he; simp at he
  | cons x l ih =>
      intro e he
      cases e with
      | zero => simp
      | succ e => simpa using ih e (by simpa using he)

lemma getD_mem_lt {α : Type} (da : α) :
    ∀ (l : List α) (e : ℕ), e < l.length → l.getD e da ∈ l := by
  intro l
  induction l with
  | nil => intro e he; simp at he
  | cons x l ih =>
      intro e he
      cases e with
      | zero => simp
      | succ e => exact List.mem_cons.2 (Or.inr (ih e (by simpa using he)))

lemma mem_enum_iff_getD {l : List (List ℕ)} {e : ℕ} {el : List ℕ} :
    (e, el) ∈ l.enum ↔ e < l.length ∧ l.getD e [] = el := by
  rw [List.mk_mem_enum_iff_getElem?]
  constructor
  · intro h
    have hlt : e < l.length := by
      by_contra hge
      rw [List.getElem?_eq_none (by omega)] at h
      exact Option.noConfusion h
    refine ⟨hlt, ?_⟩
    rw [List.getD_eq_getElem?_getD, h]
    rfl
  · rintro ⟨hlt, rfl⟩
    rw [List.getD_eq_getElem?_getD, List.getElem?_eq_getElem hlt]
    rfl

lemma enum_getD {l : List (List ℕ)} {e : ℕ} (he : e < l.length) :
    l.enum.getD e (0, []) = (e, l.getD e []) := by
  rw [List.getD_eq_getElem?_getD, List.getElem?_enum, List.getElem?_eq_getElem he,
    List.getD_eq_getElem?_getD, List.getElem?_eq_getElem he]
  rfl

lemma range_getD {n f : ℕ} (hf : f < n) : (List.range n).getD f 0 = f := by
  rw [List.getD_eq_getElem?_getD, List.getElem?_eq_getElem (by simpa using hf),
    List.getElem_range]
  rfl

lemma mem_occurrencesIdx {ies : List (ℕ × List ℕ)} {s : Finset ℕ} {x : ℕ × ℕ} :
    x ∈ occurrencesIdx ies s
      ↔ ∃ el, (x.1, el) ∈ ies ∧ x.2 < el.length ∧ faceSet el x.2 = s := by
  unfold occurrencesIdx
  rw [List.mem_flatMap]
  constructor
  · rintro ⟨p, hp, hx⟩
    rcases List.mem_filterMap.1 hx with ⟨f, hf, hsome⟩
    by_cases hcond : faceSet p.2 f = s
    · rw [if_pos hcond] at hsome
      have hx2 : (p.1, f) = x := Option.some.inj hsome
      subst hx2
      exact ⟨p.2, hp, List.mem_range.1 hf, hcond⟩
    · rw [if_neg hcond] at hsome
      exact Option.noConfusion hsome
  · rintro ⟨el, hmem, hflt, hcond⟩
    refine ⟨(x.1, el), hmem, List.mem_filterMap.2 ⟨x.2, List.mem_range.2 hflt, ?_⟩⟩
    rw [if_pos hcond]

lemma mem_occurrences {els : List (List ℕ)} {s : Finset ℕ} {x : ℕ × ℕ} :
    x ∈ occurrences els s
      ↔ x.1 < els.length ∧ x.2 < (els.getD x.1 []).length
          ∧ faceSet (els.getD x.1 []) x.2 = s := by
  rw [occurrences, mem_occurrencesIdx]
  constructor
  · rintro ⟨el, hmem, h2, h3⟩
    rcases mem_enum_iff_getD.1 hmem with ⟨hlt, hel⟩
    refine ⟨hlt, ?_, ?_⟩
    · rw [hel]; exact h2
    · rw [hel]; exact h3
  · rintro ⟨h1, h2, h3⟩
    exact ⟨els.getD x.1 [], mem_enum_iff_getD.2 ⟨h1, rfl⟩, h2, h3⟩

lemma faceRecord_eq_nil {els : List (List ℕ)} {e f : ℕ}
    (hocc : occurrences els (faceSet (els.getD e []) f) = []) :
    faceRecord els e f = none := by
  unfold faceRecord
  rw [hocc]

lemma faceRecord_eq_one {els : List (List ℕ)} {e f : ℕ} {p : ℕ × ℕ}
    (hocc : occurrences els (faceSet (els.getD e []) f) = [p]) :
    faceRecord els e f = some (.boundary .exterior) := by
  unfold faceRecord
  rw [hocc]

lemma faceRecord_eq_two {els : List (List ℕ)} {e f : ℕ} {p q : ℕ × ℕ}
    (hocc : occurrences els (faceSet (els.getD e []) f) = [p, q]) :
    faceRecord els e f
      = some (if p = (e, f) then FaceRec.interior q.1 q.2 else FaceRec.interior p.1 p.2) := by
  unfold faceRecord
  rw [hocc]

lemma faceRecord_eq_big {els : List (List ℕ)} {e f : ℕ} {p q r : ℕ × ℕ} {rest : List (ℕ × ℕ)}
    (hocc : occurrences els (faceSet (els.getD e []) f) = p :: q :: r :: rest) :
    faceRecord els e f = none := by
  unfold faceRecord
  rw [hocc]

lemma facialAdjacency_spec {els : List (List ℕ)} {adj : List (List FaceRec)}
    (h : facialAdjacency els = some adj) :
    adj.length = els.length
    ∧ ∀ e, e < els.length →
        (adj.getD e []).length = (els.getD e []).length
        ∧ ∀ f, f < (els.getD e []).length →
            faceRecord els e f
              = some ((adj.getD e []).getD f (FaceRec.boundary BTag.exterior)) := by
  unfold facialAdjacency at h
  split at h
  case isFalse => exact Option.noConfusion h
  case isTrue hall =>
  have hadj := Option.some.inj h
  subst hadj
  have hrecs_len : (facialAdjacencyRecs els).length = els.length := by
    simp [facialAdjacencyRecs]
  refine ⟨by simp [facialAdjacencyRecs], ?_⟩
  intro e he
  have hee : e < (facialAdjacencyRecs els).length := by rw [hrecs_len]; exact he
  have hrecse : (facialAdjacencyRecs els).getD e []
      = (List.range (els.getD e []).length).map fun f => faceRecord els e f := by
    unfold facialAdjacencyRecs
    rw [getD_map_lt _ (0, ([] : List ℕ)) _ _ e (by simpa using he), enum_getD he]
  have hadje : ((facialAdjacencyRecs els).map fun l =>
        l.map fun o => o.getD (FaceRec.boundary BTag.exterior)).getD e []
      = ((facialAdjacencyRecs els).getD e []).map
          fun o => o.getD (FaceRec.boundary BTag.exterior) :=
    getD_map_lt _ [] [] _ e hee
  rw [hadje, hrecse, List.map_map]
  constructor
  · simp
  intro f hf
  have hfr : ((List.range (els.getD e []).length).map
        ((fun o => o.getD (FaceRec.boundary BTag.exterior)) ∘
          fun f => faceRecord els e f)).getD f (FaceRec.boundary BTag.exterior)
      = (faceRecord els e f).getD (FaceRec.boundary BTag.exterior) := by
    rw [getD_map_lt _ 0 _ _ f (by simpa using hf), range_getD hf]
    rfl
  rw [hfr]
  have hsome : (faceRecord els e f).isSome := by
    have hl : (facialAdjacencyRecs els).getD e [] ∈ facialAdjacencyRecs els :=
      getD_mem_lt [] _ e hee
    have hmem : faceRecord els e f ∈ (facialAdjacencyRecs els).getD e [] := by
      rw [hrecse]
      exact List.mem_map.2 ⟨f, List.mem_range.2 hf, rfl⟩
    have h1 := (List.all_eq_true.1 hall) _ hl
    have h2 := (List.all_eq_true.1 h1) _ hmem
    exact h2
  rcases Option.isSome_iff_exists.1 hsome with ⟨r, hr⟩
  rw [hr]
  rfl

/-- C9: in the computed facial adjacency, every face of every element has
exactly one record (the record table is exactly element-by-face shaped), and
every interior match is mutually symmetric with identical unordered face
vertex-index sets. -/
theorem facial_adjacency_unique_and_symmetric (els : List (List ℕ))
    (adj : List (List FaceRec)) (hadj : facialAdjacency els = some adj) :
    adj.length = els.length
    ∧ (∀ e, e < els.length → (adj.getD e []).length = (els.getD e []).length)
    ∧ ∀ e f e' f', e < els.length → f < (els.getD e []).length →
        (adj.getD e []).getD f (FaceRec.boundary BTag.exterior) = FaceRec.interior e' f' →
        e' < els.length ∧ f' < (els.getD e' []).length
        ∧ (adj.getD e' []).getD f' (FaceRec.boundary BTag.exterior) = FaceRec.interior e f
        ∧ faceSet (els.getD e []) f = faceSet (els.getD e' []) f' := by
  obtain ⟨hlen, hspec⟩ := facialAdjacency_spec hadj
  refine ⟨hlen, fun e he => (hspec e he).1, ?_⟩
  intro e f e' f' he hf hrec
  have hfr : faceRecord els e f = some (FaceRec.interior e' f') := by
    rw [(hspec e he).2 f hf, hrec]
  have hself : (e, f) ∈ occurrences els (faceSet (els.getD e []) f) :=
    mem_occurrences.2 ⟨he, hf, rfl⟩
  rcases hocc : occurrences els (faceSet (els.getD e []) f) with _ | ⟨p, _ | ⟨q, _ | ⟨r, rest⟩⟩⟩
  · rw [faceRecord_eq_nil hocc] at hfr
    exact Option.noConfusion hfr
  · rw [faceRecord_eq_one hocc] at hfr
    exact FaceRec.noConfusion (Option.some.inj hfr)
  · -- the genuine interior case: exactly two occurrences
    rw [faceRecord_eq_two hocc] at hfr
    have hval := Option.some.inj hfr
    rw [hocc] at hself
    have hself' : (e, f) = p ∨ (e, f) = q := by
      rcases List.mem_cons.1 hself with h1 | h1
      · exact Or.inl h1
      · rcases List.mem_cons.1 h1 with h2 | h2
        · exact Or.inr h2
        · exact absurd h2 (List.not_mem_nil _)
    have hq_mem : q ∈ occurrences els (faceSet (els.getD e []) f) := by
      rw [hocc]; exact List.mem_cons.2 (Or.inr (List.mem_cons.2 (Or.inl rfl)))
    have hp_mem : p ∈ occurrences els (faceSet (els.getD e []) f) := by
      rw [hocc]; exact List.mem_cons.2 (Or.inl rfl)
    rcases hself' with hp | hq
    · -- (e, f) is the first occurrence, so the neighbor is q
      rw [if_pos hp.symm] at hval
      have hqval : q = (e', f') := by
        injection hval with h1 h2
        rw [← h1, ← h2]
      rw [hqval] at hq_mem hocc
      obtain ⟨he', hf', hs⟩ := mem_occurrences.1 hq_mem
      dsimp only at he' hf' hs
      refine ⟨he', hf', ?_, hs.symm⟩
      have hocc' : occurrences els (faceSet (els.getD e' []) f') = [p, (e', f')] := by
        rw [hs]; exact hocc
      have hrec' := (hspec e' he').2 f' hf'
      rw [faceRecord_eq_two hocc'] at hrec'
      have hval' := (Option.some.inj hrec').symm
      by_cases hpe : p = (e', f')
      · rw [if_pos hpe] at hval'
        rw [hval']
        have hef : (e, f) = (e', f') := hp.trans hpe
        injection hef with h1 h2
        dsimp only
        rw [← h1, ← h2]
      · rw [if_neg hpe] at hval'
        rw [hval', ← hp]
    · -- (e, f) is the second occurrence
      by_cases hpe : p = (e, f)
      · -- degenerate: both occurrences name the same face
        rw [if_pos hpe] at hval
        have hqval : q = (e', f') := by
          injection hval with h1 h2
          rw [← h1, ← h2]
        have hef : (e, f) = (e', f') := hq.trans hqval
        injection hef with h1 h2
        subst h1
        subst h2
        exact ⟨he, hf, hrec, rfl⟩
      · rw [if_neg hpe] at hval
        have hpval : p = (e', f') := by
          injection hval with h1 h2
          rw [← h1, ← h2]
        rw [hpval] at hp_mem hocc
        obtain ⟨he', hf', hs⟩ := mem_occurrences.1 hp_mem
        dsimp only at he' hf' hs
        refine ⟨he', hf', ?_, hs.symm⟩
        have hocc' : occurrences els (faceSet (els.getD e' []) f') = [(e', f'), q] := by
          rw [hs]; exact hocc
        have hrec' := (hspec e' he').2 f' hf'
        rw [faceRecord_eq_two hocc'] at hrec'
        have hval' := (Option.some.inj hrec').symm
        rw [if_pos rfl] at hval'
        rw [hval', ← hq]
  · rw [faceRecord_eq_big hocc] at hfr
    exact Option.noConfusion hfr

/- ## Partitioning: cross-partition faces get the neighbor's partition tag -/

lemma faceOcc_fst {n : ℕ} {el : List ℕ} {idx : ℕ} {s : Finset ℕ} {x : ℕ × ℕ}
    (hx : x ∈ (List.range n).filterMap
        fun f => if faceSet el f = s then some (idx, f) else none) :
    x.1 = idx := by
  rcases List.mem_filterMap.1 hx with ⟨f, _, hsome⟩
  by_cases hcond : faceSet el f = s
  · rw [if_pos hcond] at hsome
    rw [← Option.some.inj hsome]
  · rw [if_neg hcond] at hsome
    exact Option.noConfusion hsome

lemma occurrencesIdx_cons (p : ℕ × List ℕ) (ies : List (ℕ × List ℕ)) (s : Finset ℕ) :
    occurrencesIdx (p :: ies) s
      = ((List.range p.2.length).filterMap fun f =>
          if faceSet p.2 f = s then some (p.1, f) else none) ++ occurrencesIdx ies s := rfl

lemma occurrencesIdx_filter (g : ℕ → Bool) (s : Finset ℕ) :
    ∀ ies : List (ℕ × List ℕ),
      occurrencesIdx (ies.filter fun p => g p.1) s
        = (occurrencesIdx ies s).filter fun x => g x.1 := by
  intro ies
  induction ies with
  | nil => rfl
  | cons p ies ih =>
      by_cases hg : g p.1
      · rw [show (p :: ies).filter (fun p => g p.1) = p :: ies.filter (fun p => g p.1) by
          rw [List.filter_cons, if_pos hg]]
        rw [occurrencesIdx_cons, occurrencesIdx_cons, List.filter_append, ih]
        congr 1
        refine (List.filter_eq_self.2 ?_).symm
        intro x hx
        simp only [faceOcc_fst hx]
        exact hg
      · rw [show (p :: ies).filter (fun p => g p.1) = ies.filter (fun p => g p.1) by
          rw [List.filter_cons, if_neg hg]]
        rw [ih, occurrencesIdx_cons, List.filter_append]
        have hnil : (((List.range p.2.length).filterMap fun f =>
            if faceSet p.2 f = s then some (p.1, f) else none).filter
              fun x => g x.1) = [] := by
          refine List.filter_eq_nil_iff.2 ?_
          intro x hx
          simp only [faceOcc_fst hx]
          simpa using hg
        rw [hnil, List.nil_append]

/-- C6: a face that is interior in the full mesh whose two sides are assigned
to different partitions becomes, in the owning side's submesh, a boundary
face tagged with the neighboring partition's id (not the exterior tag). -/
theorem partition_mesh_tags_cross_partition_faces (els : List (List ℕ)) (part : List ℕ)
    (i : ℕ) (adj : List (List FaceRec)) (e f e' f' : ℕ)
    (hdense : part.length = els.length)
    (hadj : facialAdjacency els = some adj)
    (he : e < els.length) (hf : f < (els.getD e []).length)
    (hpe : part.getD e 0 = i)
    (hrec : (adj.getD e []).getD f (FaceRec.boundary BTag.exterior) = FaceRec.interior e' f')
    (hne : part.getD e' 0 ≠ i) :
    partitionFaceRecord els part i e f
      = some (FaceRec.boundary (BTag.partition (part.getD e' 0))) := by
  obtain ⟨hlen, hspec⟩ := facialAdjacency_spec hadj
  have hfr0 : faceRecord els e f = some (FaceRec.interior e' f') := by
    rw [(hspec e he).2 f hf, hrec]
  have hfr := hfr0
  have hself : (e, f) ∈ occurrences els (faceSet (els.getD e []) f) :=
    mem_occurrences.2 ⟨he, hf, rfl⟩
  have hkey : occurrencesIdx (partition_mesh els part i) (faceSet (els.getD e []) f)
      = (occurrences els (faceSet (els.getD e []) f)).filter
          fun x => part.getD x.1 0 == i :=
    occurrencesIdx_filter (fun n => part.getD n 0 == i) _ els.enum
  rcases hocc : occurrences els (faceSet (els.getD e []) f) with _ | ⟨p, _ | ⟨q, _ | ⟨r, rest⟩⟩⟩
  · rw [faceRecord_eq_nil hocc] at hfr
    exact Option.noConfusion hfr
  · rw [faceRecord_eq_one hocc] at hfr
    exact FaceRec.noConfusion (Option.some.inj hfr)
  · -- exactly two occurrences
    rw [faceRecord_eq_two hocc] at hfr
    have hval := Option.some.inj hfr
    rw [hocc] at hself hkey
    have hself' : (e, f) = p ∨ (e, f) = q := by
      rcases List.mem_cons.1 hself with h1 | h1
      · exact Or.inl h1
      · rcases List.mem_cons.1 h1 with h2 | h2
        · exact Or.inr h2
        · exact absurd h2 (List.not_mem_nil _)
    have hsingle : ∀ hkeyf : occurrencesIdx (partition_mesh els part i)
          (faceSet (els.getD e []) f) = [(e, f)],
        partitionFaceRecord els part i e f
          = some (FaceRec.boundary (BTag.partition (part.getD e' 0))) := by
      intro hkeyf
      unfold partitionFaceRecord
      rw [hkeyf, hfr0]
    rcases hself' with hp | hq
    · -- (e, f) first, neighbor is q
      rw [if_pos hp.symm] at hval
      have hqval : q = (e', f') := by
        injection hval with h1 h2
        rw [← h1, ← h2]
      rw [← hp, hqval] at hkey
      apply hsingle
      rw [hkey, List.filter_cons, List.filter_cons, List.filter_nil]
      have h1 : (part.getD (e, f).1 0 == i) = true := beq_iff_eq.2 hpe
      have h2 : (part.getD (e', f').1 0 == i) = false := beq_eq_false_iff_ne.2 hne
      rw [h1, h2]
      simp
    · -- (e, f) second
      by_cases hpe2 : p = (e, f)
      · -- degenerate self-match is impossible across partitions
        rw [if_pos hpe2] at hval
        have hqval : q = (e', f') := by
          injection hval with h1 h2
          rw [← h1, ← h2]
        have hef : (e, f) = (e', f') := hq.trans hqval
        injection hef with h1 h2
        exact absurd (by rw [← h1]; exact hpe) hne
      · rw [if_neg hpe2] at hval
        have hpval : p = (e', f') := by
          injection hval with h1 h2
          rw [← h1, ← h2]
        rw [hpval, ← hq] at hkey
        apply hsingle
        rw [hkey, List.filter_cons, List.filter_cons, List.filter_nil]
        have h1 : (part.getD (e, f).1 0 == i) = true := beq_iff_eq.2 hpe
        have h2 : (part.getD (e', f').1 0 == i) = false := beq_eq_false_iff_ne.2 hne
        rw [h1, h2]
        simp
  · rw [faceRecord_eq_big hocc] at hfr
    exact Option.noConfusion hfr

/-- Witness for C6 on `elsW` split across two partitions by `partW`. -/
theorem partition_mesh_tags_cross_partition_faces_witness :
    partitionFaceRecord elsW partW 0 0 0
      = some (FaceRec.boundary (BTag.partition (partW.getD 1 0))) :=
  partition_mesh_tags_cross_partition_faces elsW partW 0 adjW 0 0 1 1
    (by decide) (by decide) (by decide) (by decide) (by decide) (by decide) (by decide)

/-- Witness for C9 on the two-triangle element list `elsW`: the interior
record of element 0, face 0 symmetrically matches element 1, face 1, with the
same face vertex set. -/
theorem facial_adjacency_unique_and_symmetric_witness :
    adjW.length = elsW.length
    ∧ (adjW.getD 1 []).getD 1 (FaceRec.boundary BTag.exterior) = FaceRec.interior 0 0
    ∧ faceSet (elsW.getD 0 []) 0 = faceSet (elsW.getD 1 []) 1 :=
  have h := facial_adjacency_unique_and_symmetric elsW adjW (by decide)
  ⟨h.1, (h.2.2 0 0 1 1 (by decide) (by decide) (by decide)).2.2.1,
    (h.2.2 0 0 1 1 (by decide) (by decide) (by decide)).2.2.2⟩

/- ## Face restriction on a tag matching no face -/

lemma snd_mem_of_mem_enum {α : Type} {l : List α} {p : ℕ × α} (h : p ∈ l.enum) :
    p.2 ∈ l := by
  obtain ⟨i, a⟩ := p
  rw [List.mk_mem_enum_iff_getElem?] at h
  rcases List.getElem?_eq_some.1 h with ⟨hlt, rfl⟩
  exact List.getElem_mem hlt

/-- C10: a boundary tag matching no face of the mesh still yields a face
restriction (no error), whose target boundary discretization has zero
nodes. -/
theorem make_face_restriction_no_matching_faces (els : List (List ℕ)) (nNodes : ℕ)
    (tag : BTag) (adj : List (List FaceRec))
    (hadj : facialAdjacency els = some adj)
    (hno : ∀ l ∈ adj, ∀ rec ∈ l, rec ≠ FaceRec.boundary tag) :
    make_face_restriction els nNodes tag = some { selected := [], nNodes := nNodes }
    ∧ ({ selected := [], nNodes := nNodes } : FaceRestriction).targetNodeCount = 0 := by
  have hsel : selectFaces adj tag = [] := by
    unfold selectFaces
    refine List.flatMap_eq_nil_iff.2 ?_
    intro p hp
    refine List.filterMap_eq_nil_iff.2 ?_
    intro q hq
    have hrec : q.2 ∈ p.2 := snd_mem_of_mem_enum hq
    have hl : p.2 ∈ adj := snd_mem_of_mem_enum hp
    rw [if_neg (hno p.2 hl q.2 hrec)]
  constructor
  · unfold make_face_restriction
    rw [hadj, Option.map_some', hsel]
  · simp [FaceRestriction.targetNodeCount]

/-- Witness for C10: no face of `elsW` carries partition tag 5. -/
theorem make_face_restriction_no_matching_faces_witness :
    make_face_restriction elsW 4 (BTag.partition 5) = some { selected := [], nNodes := 4 }
    ∧ ({ selected := [], nNodes := 4 } : FaceRestriction).targetNodeCount = 0 :=
  make_face_restriction_no_matching_faces elsW 4 (BTag.partition 5) adjW
    (by decide) (by decide)

/- ## The bundle exchange tolerates a missing shared boundary -/

/-- C8: when the local boundary discretization for a remote partition has
zero nodes the sender transmits `none` instead of a bundle, and the receiver
skips connection construction on a `none` bundle without error (for any
builder, even one that would fail). -/
theorem no_shared_boundary_is_tolerated (fr : FaceRestriction) (payload : Bundle)
    (build : Bundle → Except String Connection)
    (h : fr.targetNodeCount = 0) :
    sendBoundaryData fr payload = none
    ∧ receiveBoundaryData none build = Except.ok none := by
  constructor
  · unfold sendBoundaryData
    rw [if_pos h]
  · rfl

/-- Witness for C8 on the empty face restriction `frW`. -/
theorem no_shared_boundary_is_tolerated_witness :
    sendBoundaryData frW bundleW0 = none
    ∧ receiveBoundaryData none buildW = Except.ok none :=
  no_shared_boundary_is_tolerated frW bundleW0 buildW (by decide)

/- ## The partition connection passes the connection correctness check -/

lemma count_range_map_add {nNodes : ℕ} (hn : 0 < nNodes) (l t : ℕ) :
    ((List.range nNodes).map fun j => l * nNodes + j).count t
      = if t / nNodes = l then 1 else 0 := by
  by_cases h : t / nNodes = l
  · rw [if_pos h]
    apply List.count_eq_one_of_mem
    · exact List.Nodup.map (fun a b hab => by omega) (List.nodup_range nNodes)
    · refine List.mem_map.2 ⟨t % nNodes, List.mem_range.2 (Nat.mod_lt _ hn), ?_⟩
      rw [← h, Nat.mul_comm]
      exact Nat.div_add_mod t nNodes
  · rw [if_neg h]
    refine List.count_eq_zero.2 ?_
    intro hmem
    rcases List.mem_map.1 hmem with ⟨j, hj, hjt⟩
    apply h
    rw [← hjt, Nat.add_comm, Nat.mul_comm l nNodes, Nat.add_mul_div_left j l hn,
      Nat.div_eq_of_lt (List.mem_range.1 hj), Nat.zero_add]

lemma count_flatMap_ids {nNodes : ℕ} (hn : 0 < nNodes) :
    ∀ (L : List ℕ) (t : ℕ),
      (L.flatMap fun l => (List.range nNodes).map fun j => l * nNodes + j).count t
        = L.count (t / nNodes) := by
  intro L t
  induction L with
  | nil => rfl
  | cons l L ih =>
      rw [List.flatMap_cons, List.count_append, ih, count_range_map_add hn l t,
        List.count_cons]
      by_cases h : t / nNodes = l
      · simp [h, Nat.add_comm]
      · have hbeq : (l == t / nNodes) = false := beq_eq_false_iff_ne.2 fun he => h he.symm
        simp [h, hbeq]

lemma partition_rows_fst (nNodes : ℕ) :
    ∀ L : List ((ℕ × ℕ) × List (List ℚ)), (∀ pm ∈ L, pm.2.length = nNodes) →
      ((L.map fun pm => Batch.mk
            ((List.range nNodes).map fun j => pm.1.1 * nNodes + j)
            ((List.range nNodes).map fun j => pm.1.2 * nNodes + j)
            pm.2).flatMap fun b =>
          (b.to_indices.zip b.mat).map fun p => (p.1, p.2, b.from_indices)).map
        (fun r => r.1)
      = L.flatMap fun pm => (List.range nNodes).map fun j => pm.1.1 * nNodes + j := by
  intro L
  induction L with
  | nil => intro _; rfl
  | cons pm L ih =>
      intro hlen
      rw [List.map_cons, List.flatMap_cons, List.map_append,
        ih fun x hx => hlen x (by simp [hx]), List.flatMap_cons]
      congr 1
      rw [List.map_map]
      have hcomp : ((fun (r : ℕ × List ℚ × List ℕ) => r.1) ∘ fun (p : ℕ × List ℚ) =>
          (p.1, p.2, (List.range nNodes).map fun j => pm.1.2 * nNodes + j)) = Prod.fst := rfl
      rw [hcomp]
      apply List.map_fst_zip
      rw [hlen pm (by simp)]
      simp

lemma dotQ_map_oneF : ∀ (row : List ℚ) (l : List ℕ), row.length ≤ l.length →
    dotQ row (l.map oneF) = row.sum := by
  intro row
  induction row with
  | nil => intro l _; simp [dotQ]
  | cons r rs ih =>
      intro l hl
      cases l with
      | nil => simp at hl
      | cons x xs =>
          simp only [List.map_cons, dotQ, List.sum_cons, oneF]
          rw [ih xs (by simpa using hl)]
          ring

/-- C7: a partition connection built from a well-formed exchanged bundle
(metadata matching each local boundary element to exactly one remote element,
consistent node layout, constant-preserving interpolation matrices) satisfies
the connection correctness check: coverage, disjointness, source validity and
the constant-field exactness round trip. -/
theorem partition_connection_passes_check (nNodes nLocalElems : ℕ) (b : Bundle)
    (hn : 0 < nNodes)
    (hperm : (b.pairs.map Prod.fst).Perm (List.range nLocalElems))
    (hlen : b.mats.length = b.pairs.length)
    (hremote : ∀ p ∈ b.pairs, p.2 < b.nRemoteElems)
    (hmat : ∀ M ∈ b.mats, M.length = nNodes
        ∧ ∀ row ∈ M, row.length = nNodes ∧ row.sum = 1) :
    check_connection (make_partition_connection nNodes nLocalElems b) = true := by
  have hmlen : ∀ pm ∈ b.pairs.zip b.mats, pm.2.length = nNodes := by
    intro pm hpm
    obtain ⟨p1, p2⟩ := pm
    exact (hmat p2 (List.of_mem_zip hpm).2).1
  have hfst : ((make_partition_connection nNodes nLocalElems b).rows.map fun r => r.1)
      = (b.pairs.zip b.mats).flatMap fun pm =>
          (List.range nNodes).map fun j => pm.1.1 * nNodes + j :=
    partition_rows_fst nNodes (b.pairs.zip b.mats) hmlen
  have hzip_fst : (b.pairs.zip b.mats).map (fun pm => pm.1.1) = b.pairs.map Prod.fst := by
    have h1 : (b.pairs.zip b.mats).map (fun pm => pm.1.1)
        = ((b.pairs.zip b.mats).map Prod.fst).map Prod.fst := by
      rw [List.map_map]
      rfl
    rw [h1, List.map_fst_zip _ _ (le_of_eq hlen.symm)]
  have hids : ((b.pairs.zip b.mats).flatMap fun pm =>
        (List.range nNodes).map fun j => pm.1.1 * nNodes + j)
      = (b.pairs.map Prod.fst).flatMap fun l =>
          (List.range nNodes).map fun j => l * nNodes + j := by
    rw [← hzip_fst, List.flatMap_map]
  have hcov : (make_partition_connection nNodes nLocalElems b).coversOnce := by
    intro t ht
    rw [hfst, hids, count_flatMap_ids hn, hperm.count_eq]
    apply List.count_eq_one_of_mem (List.nodup_range _)
    exact List.mem_range.2 ((Nat.div_lt_iff_lt_mul hn).2 ht)
  have hsrc : (make_partition_connection nNodes nLocalElems b).srcValid := by
    intro r hr s hs
    rcases List.mem_flatMap.1 hr with ⟨bb, hbb, hrb⟩
    rcases List.mem_map.1 hbb with ⟨pm, hpm, rfl⟩
    rcases List.mem_map.1 hrb with ⟨p, hp, rfl⟩
    rcases List.mem_map.1 hs with ⟨j, hj, rfl⟩
    obtain ⟨pp, mm⟩ := pm
    have hlt : pp.2 < b.nRemoteElems := hremote pp (List.of_mem_zip hpm).1
    have h1 : pp.2 * nNodes + j < (pp.2 + 1) * nNodes := by
      rw [Nat.add_mul, Nat.one_mul]
      have := List.mem_range.1 hj
      omega
    have h2 : (pp.2 + 1) * nNodes ≤ b.nRemoteElems * nNodes :=
      Nat.mul_le_mul_right nNodes hlt
    calc pp.2 * nNodes + j < (pp.2 + 1) * nNodes := h1
      _ ≤ b.nRemoteElems * nNodes := h2
  have hexact : (make_partition_connection nNodes nLocalElems b).constExact := by
    intro r hr
    rcases List.mem_flatMap.1 hr with ⟨bb, hbb, hrb⟩
    rcases List.mem_map.1 hbb with ⟨pm, hpm, rfl⟩
    rcases List.mem_map.1 hrb with ⟨p, hp, rfl⟩
    obtain ⟨pp, mm⟩ := pm
    obtain ⟨p1, p2⟩ := p
    obtain ⟨hrowlen, hrowsum⟩ :=
      (hmat mm (List.of_mem_zip hpm).2).2 p2 (List.of_mem_zip hp).2
    show dotQ p2 (((List.range nNodes).map fun j => pp.2 * nNodes + j).map oneF) = 1
    rw [dotQ_map_oneF p2 _ (by simp [hrowlen]), hrowsum]
  have happly : ∀ t, t < (make_partition_connection nNodes nLocalElems b).nto →
      applyConnection (make_partition_connection nNodes nLocalElems b) oneF t = 1 :=
    applyConnection_oneF_eq_one _ hcov hexact
  unfold check_connection
  rw [Bool.and_eq_true, Bool.and_eq_true]
  exact ⟨⟨decide_eq_true hcov, decide_eq_true hsrc⟩, decide_eq_true happly⟩

/-- Witness for C7 on the concrete two-face bundle `bundleW`. -/
theorem partition_connection_passes_check_witness :
    check_connection (make_partition_connection 1 2 bundleW) = true :=
  partition_connection_passes_check 1 2 bundleW (by decide) (by decide) (by decide)
    (by decide)
    (by
      intro M hM
      simp [bundleW] at hM
      rcases hM with rfl | rfl <;>
        exact ⟨rfl, by
          intro row hrow
          simp at hrow
          subst hrow
          exact ⟨rfl, by norm_num⟩⟩)

/- ## Serialization round trip -/

lemma decListAux_map {α : Type} (dec : PyData → Option α) (enc : α → PyData)
    (h : ∀ a, dec (enc a) = some a) :
    ∀ l : List α, decListAux dec (l.map enc) = some l := by
  intro l
  induction l with
  | nil => rfl
  | cons x xs ih => simp [decListAux, h x, ih]

lemma decList_encList {α : Type} (dec : PyData → Option α) (enc : α → PyData)
    (h : ∀ a, dec (enc a) = some a) :
    ∀ l : List α, decList dec (encList enc l) = some l := fun l =>
  decListAux_map dec enc h l

lemma decOpt_encOpt {α : Type} (dec : PyData → Option α) (enc : α → PyData)
    (h : ∀ a, dec (enc a) = some a) :
    ∀ o : Option α, decOpt dec (encOpt enc o) = some o := by
  intro o
  cases o with
  | none => rfl
  | some a => simp [encOpt, decOpt, h a]

lemma decBTag_encBTag : ∀ t, decBTag (encBTag t) = some t := by
  intro t
  cases t <;> rfl

lemma decFaceRec_encFaceRec : ∀ r, decFaceRec (encFaceRec r) = some r := by
  intro r
  cases r with
  | interior e f => rfl
  | boundary t =>
      show (decBTag (encBTag t)).map FaceRec.boundary = some (FaceRec.boundary t)
      rw [decBTag_encBTag]
      rfl

lemma decGroup_encGroup : ∀ g, decGroup (encGroup g) = some g := by
  intro g
  obtain ⟨o, d, vi, nd⟩ := g
  have h1 := decList_encList _ _ (decList_encList decNat PyData.nat fun n => rfl) vi
  have h2 := decList_encList _ _
    (decList_encList _ _ (decList_encList decRat PyData.rat fun q => rfl)) nd
  simp [encGroup, decGroup, h1, h2]

lemma decNodalAdjacency_enc : ∀ na, decNodalAdjacency (encNodalAdjacency na) = some na := by
  intro na
  obtain ⟨ns, nb⟩ := na
  have h1 := decList_encList decNat PyData.nat (fun n => rfl) ns
  have h2 := decList_encList decNat PyData.nat (fun n => rfl) nb
  simp [encNodalAdjacency, decNodalAdjacency, h1, h2]

/-- C5: decoding an encoded mesh yields a structurally equal mesh — the
serialization round trip holds for every mesh, including multi-group meshes
with computed nodal and facial adjacency. -/
theorem as_python_roundtrip (m : MMMesh) : mesh_from_python (as_python m) = some m := by
  obtain ⟨v, g, na, fa⟩ := m
  have hv := decList_encList _ _ (decList_encList decRat PyData.rat fun q => rfl) v
  have hg := decList_encList _ _ decGroup_encGroup g
  have hna := decOpt_encOpt _ _ decNodalAdjacency_enc na
  have hfa := decOpt_encOpt _ _
    (decList_encList _ _ (decList_encList _ _
      (decList_encList _ _ decFaceRec_encFaceRec))) fa
  simp [as_python, mesh_from_python, hv, hg, hna, hfa]

end Meshmode
